import Mathlib

/-!
Verification of the chunk-transcribe-translate-merge subtitle pipeline
implemented in `main.py` of the vma_subtitle_tool repository.

The embedding models media time in exact rationals (ℚ).  The Python source
computes times with IEEE floats; the spec itself states the windowing and
timestamp invariants over real "seconds" values (contiguity "within
floating-point tolerance"), so the exact-arithmetic model is the faithful
shallow embedding of the algorithms.  Python `int(...)` truncation toward
zero is modelled by `pytrunc`, Python float `%` (sign of the divisor) by
`pymod`, and Python `//` floor division by `Int.floor`.

Effectful parts of `process_file` (ffmpeg extraction, the OpenAI calls,
writing the .srt file) are modelled by an explicit event trace of type
`Ev`; external services (transcription attempts, the googletrans
translator) are oracles passed in through `Config`.
-/

namespace VmaSubtitle

/-- `CHUNK_SECONDS = 5 * 60` from main.py line 38. -/
def CHUNK_SECONDS : ℚ := 5 * 60

/-- Python `int(q)`: truncation toward zero. -/
def pytrunc (q : ℚ) : ℤ := if 0 ≤ q then ⌊q⌋ else ⌈q⌉

/-- Python `str.strip()`: drop whitespace characters from both ends. -/
def pystrip (s : String) : String :=
  String.mk
    (((s.data.dropWhile Char.isWhitespace).reverse.dropWhile
      Char.isWhitespace).reverse)

/-- Python float `%` with positive divisor: `a % b = a - b * (a // b)`,
where `//` is floor division. -/
def pymod (a b : ℚ) : ℚ := a - b * ⌊a / b⌋

/-- Zero-pad the decimal representation of `n` to `width` characters,
as Python `f"{n:0{width}d}"` does for nonnegative `n`. -/
def padNat (width : Nat) (n : Nat) : String :=
  String.mk (List.replicate (width - (Nat.repr n).length) '0') ++ Nat.repr n

/-- Python `f"{i:0{width}d}"`: for negative numbers the sign is emitted
first and the digits are padded to the remaining width. -/
def padInt (width : Nat) (i : ℤ) : String :=
  if i < 0 then "-" ++ padNat (width - 1) i.natAbs else padNat width i.toNat

/-- `seconds_to_srt_timestamp` from main.py lines 40-45:
`h = int(sec // 3600)`, `m = int((sec % 3600) // 60)`, `s = int(sec % 60)`,
`ms = int((sec - int(sec)) * 1000)`, rendered as `HH:MM:SS,mmm`.
`sec // 3600` is already an integer-valued float, so `int` of it is its
floor. -/
def seconds_to_srt_timestamp (sec : ℚ) : String :=
  let h : ℤ := ⌊sec / 3600⌋
  let m : ℤ := ⌊pymod sec 3600 / 60⌋
  let s : ℤ := pytrunc (pymod sec 60)
  let ms : ℤ := pytrunc ((sec - (pytrunc sec : ℚ)) * 1000)
  padInt 2 h ++ ":" ++ padInt 2 m ++ ":" ++ padInt 2 s ++ "," ++ padInt 3 ms

/-- The chunking while-loop of `split_audio` (main.py lines 70-87):
starting from `s`, emit the window `[s, min d (s + c))` and advance by `c`
while `s < d`.  For `c ≤ 0` the Python loop would not terminate when
`s < d`; the embedding returns `[]` in that case, which is outside every
use (the caller always passes `CHUNK_SECONDS = 300 > 0`). -/
def split_loop (d c : ℚ) (s : ℚ) : List (ℚ × ℚ) :=
  if h : s < d ∧ 0 < c then
    (s, min d (s + c)) :: split_loop d c (s + c)
  else
    []
termination_by (⌈(d - s) / c⌉).toNat
decreasing_by
  obtain ⟨h1, h2⟩ := h
  have key : (d - (s + c)) / c = (d - s) / c - 1 := by
    field_simp
    ring
  rw [key, Int.ceil_sub_one]
  have hpos : 0 < (d - s) / c := div_pos (by linarith) h2
  have : (1 : ℤ) ≤ ⌈(d - s) / c⌉ := Int.one_le_ceil_iff.mpr hpos
  omega

/-- The windows produced by `split_audio` for a source of duration `d`
and chunk length `c`: the loop of main.py lines 70-87 started at
`start = 0.0`.  Each produced chunk triple `(start, end, chunk_path)` is
modelled by its window `(start, end)`; the chunk file of window `i` is
identified by its index. -/
def split_audio (d c : ℚ) : List (ℚ × ℚ) :=
  split_loop d c 0

/-- A provider sub-segment of the OpenAI response: a duck-typed dict whose
"start", "end" and "text" keys are read with `.get` and a default
(main.py lines 142-144), so each field may be absent. -/
structure ProviderSegment where
  startOpt : Option ℚ
  endOpt : Option ℚ
  textOpt : Option String
deriving DecidableEq

/-- One element of `all_segments` (main.py lines 146 and 150): the dict
`{"start": .., "end": .., "text": .., "zh": ..}`.  The "end" key is named
`stop` here because `end` is reserved in Lean. -/
structure Segment where
  start : ℚ
  stop : ℚ
  text : String
  zh : String
deriving DecidableEq

/-- `translate_text` from main.py lines 108-114.  The translator is `none`
when the googletrans import failed (`Translator is None`); a call of the
translator that raises is an `Except.error`, and in both cases the input
text is returned unchanged. -/
def translate_text (text : String)
    (translator : Option (String → Except Unit String)) : String :=
  match translator with
  | none => text
  | some tr =>
    match tr text with
    | Except.ok res => res
    | Except.error _ => text

/-- The errors `process_file` can raise, mirroring the `RuntimeError`s and
propagated exceptions of main.py. -/
inductive PipelineError where
  | openaiMissing
  | apiKeyMissing
  | chunkFailed (idx : Nat)
  | localModeMissing
deriving DecidableEq

/-- A raw provider response: `res.get("text")` and `res.get("segments")`
may each be absent (main.py lines 98-99 use `or ""` / `or []`). -/
abbrev ProviderResponse := Option String × Option (List ProviderSegment)

/-- Filesystem and network effects of a pipeline run, in order of
occurrence.  `extractFullAudio` is the creation of `full_audio.wav`,
`extractChunk i s e` the ffmpeg extraction of `chunk_i.wav` for window
`[s, e)`, `serviceCall i` one network call of a transcription attempt on
chunk `i`, `removeTemp` the deletion of a temporary audio file (`some i`
a chunk file, `none` the full audio) — an event an `os.remove` would
emit; main.py contains no such call — and `writeSrt doc` the writing of
the output subtitle file with content `doc`. -/
inductive Ev where
  | extractFullAudio
  | extractChunk (idx : Nat) (start stop : ℚ)
  | serviceCall (idx : Nat)
  | removeTemp (idx : Option Nat)
  | writeSrt (doc : String)
deriving DecidableEq

/-- `transcribe_chunk_openai` from main.py lines 89-106: raises when the
openai library is missing or `api_key is None`; otherwise tries
`openai.Audio.transcribe` and, if that raises, the alternate
`openai.Transcription.create`; a second exception propagates.  The two
attempts are external oracles; the returned event list records the
network calls actually made. -/
def transcribe_chunk_openai (openaiAvailable : Bool) (apiKey : Option String)
    (attempt1 attempt2 : Nat → Except Unit ProviderResponse) (idx : Nat) :
    Except PipelineError (String × List ProviderSegment) × List Ev :=
  if openaiAvailable = false then
    (Except.error PipelineError.openaiMissing, [])
  else
    match apiKey with
    | none => (Except.error PipelineError.apiKeyMissing, [])
    | some _ =>
      match attempt1 idx with
      | Except.ok r =>
        (Except.ok (r.1.getD (""), r.2.getD []), [Ev.serviceCall idx])
      | Except.error _ =>
        match attempt2 idx with
        | Except.ok r =>
          (Except.ok (r.1.getD (""), r.2.getD []),
            [Ev.serviceCall idx, Ev.serviceCall idx])
        | Except.error _ =>
          (Except.error (PipelineError.chunkFailed idx),
            [Ev.serviceCall idx, Ev.serviceCall idx])

/-- The per-chunk body of the loop in `process_file` (main.py lines
140-150): if the provider returned segments, rebase each sub-segment by
the window start and translate it; otherwise synthesize a single entry
spanning the whole window from the full text. -/
def chunkEntries (translator : Option (String → Except Unit String))
    (start stop : ℚ) (text : String) (segments : List ProviderSegment) :
    List Segment :=
  if segments ≠ [] then
    segments.map fun s =>
      let eng_text := pystrip (s.textOpt.getD (""))
      { start := start + s.startOpt.getD 0
        stop := start + s.endOpt.getD 0
        text := eng_text
        zh := translate_text eng_text translator }
  else
    let eng_text := pystrip text
    [{ start := start, stop := stop, text := eng_text,
       zh := translate_text eng_text translator }]

/-- `all_segments.sort(key=lambda x: x["start"])` (main.py line 155):
Python's sort is stable, modelled by the stable `List.mergeSort`. -/
def sortSegments (l : List Segment) : List Segment :=
  l.mergeSort fun a b => decide (a.start ≤ b.start)

/-- One cue block written by `segments_to_srt` (main.py line 123):
sequence number, time range, stripped English line, stripped Chinese
line, blank separator. -/
def cueBlock (i : Nat) (seg : Segment) : String :=
  Nat.repr i ++ "\n" ++ seconds_to_srt_timestamp seg.start ++ " --> " ++
    seconds_to_srt_timestamp seg.stop ++ "\n" ++ pystrip seg.text ++ "\n" ++
    pystrip seg.zh ++ "\n\n"

/-- `segments_to_srt` from main.py lines 116-123, as the document text it
writes: one cue block per entry, enumerated from 1. -/
def segments_to_srt (all_segments : List Segment) : String :=
  String.join ((List.enumFrom 1 all_segments).map fun p => cueBlock p.1 p.2)

/-- The inputs of a pipeline run: the media duration, availability flags
of the optional imports, the credential, and the behavior of the external
translation and transcription services. -/
structure Config where
  duration : ℚ
  openaiAvailable : Bool
  apiKey : Option String
  translatorAvailable : Bool
  translatorImpl : String → Except Unit String
  attempt1 : Nat → Except Unit ProviderResponse
  attempt2 : Nat → Except Unit ProviderResponse
  use_openai : Bool

/-- The chunk loop of `process_file` (main.py lines 135-154) over the
enumerated windows, accumulating `all_segments` and the effect trace; an
error aborts the loop and propagates (there is no skip policy in the
source). -/
def processChunks (cfg : Config)
    (translator : Option (String → Except Unit String)) :
    List (Nat × (ℚ × ℚ)) → Except PipelineError (List Segment) × List Ev
  | [] => (Except.ok [], [])
  | (idx, w) :: rest =>
    if cfg.use_openai then
      match transcribe_chunk_openai cfg.openaiAvailable cfg.apiKey
          cfg.attempt1 cfg.attempt2 idx with
      | (Except.ok res, evs) =>
        match processChunks cfg translator rest with
        | (Except.ok segs, evsRest) =>
          (Except.ok (chunkEntries translator w.1 w.2 res.1 res.2 ++ segs),
            evs ++ evsRest)
        | (Except.error err, evsRest) => (Except.error err, evs ++ evsRest)
      | (Except.error err, evs) => (Except.error err, evs)
    else
      (Except.error PipelineError.localModeMissing, [])

/-- `process_file` from main.py lines 125-158: extract audio and chunks
(`split_audio`), build the translator if googletrans imported, process
every chunk, sort the accumulated entries by start, and only then write
the .srt document.  The result pairs the outcome (output document or
propagated error) with the effect trace in order. -/
def process_file (cfg : Config) : Except PipelineError String × List Ev :=
  let windows := split_audio cfg.duration CHUNK_SECONDS
  let extractEvs := Ev.extractFullAudio ::
    windows.enum.map fun p => Ev.extractChunk p.1 p.2.1 p.2.2
  let translator :=
    if cfg.translatorAvailable then some cfg.translatorImpl else none
  match processChunks cfg translator windows.enum with
  | (Except.ok entries, evs) =>
    let doc := segments_to_srt (sortSegments entries)
    (Except.ok doc, extractEvs ++ evs ++ [Ev.writeSrt doc])
  | (Except.error err, evs) => (Except.error err, extractEvs ++ evs)

/-- A run with one 10-second chunk, a missing API key and failing
external services. -/
def cfgNoKey : Config where
  duration := 10
  openaiAvailable := true
  apiKey := none
  translatorAvailable := false
  translatorImpl := fun _ => Except.error ()
  attempt1 := fun _ => Except.error ()
  attempt2 := fun _ => Except.error ()
  use_openai := true

/-- A run with one 10-second chunk, a key present, but both transcription
attempts failing on every chunk. -/
def cfgFailing : Config where
  duration := 10
  openaiAvailable := true
  apiKey := some ("k")
  translatorAvailable := false
  translatorImpl := fun _ => Except.error ()
  attempt1 := fun _ => Except.error ()
  attempt2 := fun _ => Except.error ()
  use_openai := true

/-- A run with one 10-second chunk whose transcription succeeds with an
empty response (no text, no segments) and no translator. -/
def cfgEmptyResult : Config where
  duration := 10
  openaiAvailable := true
  apiKey := some ("k")
  translatorAvailable := false
  translatorImpl := fun _ => Except.error ()
  attempt1 := fun _ => Except.ok (none, none)
  attempt2 := fun _ => Except.error ()
  use_openai := true

/-- A zero-duration run. -/
def cfgEmptySource : Config where
  duration := 0
  openaiAvailable := true
  apiKey := some ("k")
  translatorAvailable := false
  translatorImpl := fun _ => Except.error ()
  attempt1 := fun _ => Except.ok (none, none)
  attempt2 := fun _ => Except.error ()
  use_openai := true

end VmaSubtitle

namespace VmaSubtitle

lemma split_loop_mem (d c : ℚ) (s : ℚ) (w : ℚ × ℚ)
    (hw : w ∈ split_loop d c s) :
    s ≤ w.1 ∧ w.1 < w.2 ∧ w.2 ≤ d ∧ w.2 ≤ w.1 + c := by
  induction s using split_loop.induct d c with
  | case1 s h ih =>
    rw [split_loop, dif_pos h] at hw
    rcases List.mem_cons.mp hw with rfl | hmem
    · refine ⟨le_refl _, ?_, min_le_left _ _, min_le_right _ _⟩
      exact lt_min h.1 (by linarith [h.2])
    · have := ih hmem
      exact ⟨by linarith [h.2, this.1], this.2.1, this.2.2.1, this.2.2.2⟩
  | case2 s h =>
    rw [split_loop, dif_neg h] at hw
    simp at hw

lemma split_loop_chain (d c : ℚ) (s : ℚ) :
    List.Chain' (fun w1 w2 : ℚ × ℚ => w1.2 = w2.1) (split_loop d c s) := by
  induction s using split_loop.induct d c with
  | case1 s h ih =>
    rw [split_loop, dif_pos h]
    refine List.chain'_cons'.mpr ⟨?_, ih⟩
    intro y hy
    by_cases h2 : s + c < d ∧ 0 < c
    · rw [split_loop, dif_pos h2] at hy
      simp only [List.head?_cons, Option.mem_def, Option.some.injEq] at hy
      subst hy
      exact min_eq_right (le_of_lt h2.1)
    · rw [split_loop, dif_neg h2] at hy
      simp at hy
  | case2 s h =>
    rw [split_loop, dif_neg h]
    exact List.chain'_nil

lemma split_loop_pairwise (d c : ℚ) (s : ℚ) :
    (split_loop d c s).Pairwise (fun w1 w2 => w1.2 ≤ w2.1) := by
  induction s using split_loop.induct d c with
  | case1 s h ih =>
    rw [split_loop, dif_pos h]
    refine List.pairwise_cons.mpr ⟨?_, ih⟩
    intro w hw
    have hs : s + c ≤ w.1 := (split_loop_mem d c (s + c) w hw).1
    exact le_trans (min_le_right _ _) hs
  | case2 s h =>
    rw [split_loop, dif_neg h]
    exact List.Pairwise.nil

lemma split_loop_getLast (d c : ℚ) (s : ℚ) (w : ℚ × ℚ)
    (hw : (split_loop d c s).getLast? = some w) : w.2 = d := by
  induction s using split_loop.induct d c with
  | case1 s h ih =>
    rw [split_loop, dif_pos h] at hw
    by_cases h2 : s + c < d ∧ 0 < c
    · have hne : split_loop d c (s + c) ≠ [] := by
        rw [split_loop, dif_pos h2]
        exact List.cons_ne_nil _ _
      obtain ⟨x, xs, hx⟩ := List.exists_cons_of_ne_nil hne
      rw [hx, List.getLast?_cons_cons] at hw
      exact ih (by rw [hx]; exact hw)
    · have hnil : split_loop d c (s + c) = [] := by
        rw [split_loop, dif_neg h2]
      rw [hnil] at hw
      simp only [List.getLast?_singleton, Option.some.injEq] at hw
      subst hw
      have hle : d ≤ s + c := by
        rcases not_and_or.mp h2 with h3 | h3
        · exact le_of_not_lt h3
        · exact absurd h.2 h3
      exact min_eq_left hle
  | case2 s h =>
    rw [split_loop, dif_neg h] at hw
    simp at hw

lemma split_loop_cover (d c : ℚ) (s : ℚ) (t : ℚ)
    (hst : s ≤ t) (htd : t < d) (hc : 0 < c) :
    ∃ w ∈ split_loop d c s, w.1 ≤ t ∧ t < w.2 := by
  induction s using split_loop.induct d c with
  | case1 s h ih =>
    rw [split_loop, dif_pos h]
    by_cases h2 : t < s + c
    · exact ⟨(s, min d (s + c)), List.mem_cons_self _ _, hst, lt_min htd h2⟩
    · obtain ⟨w, hw, hw1, hw2⟩ := ih (le_of_not_lt h2)
      exact ⟨w, List.mem_cons_of_mem _ hw, hw1, hw2⟩
  | case2 s h =>
    exact absurd ⟨lt_of_le_of_lt hst htd, hc⟩ h

lemma split_loop_head (d c : ℚ) (s : ℚ) (w : ℚ × ℚ)
    (hw : (split_loop d c s).head? = some w) : w.1 = s := by
  by_cases h : s < d ∧ 0 < c
  · rw [split_loop, dif_pos h] at hw
    simp only [List.head?_cons, Option.some.injEq] at hw
    subst hw
    rfl
  · rw [split_loop, dif_neg h] at hw
    simp at hw

lemma split_audio_concrete :
    split_audio 610 300 = [(0, 300), (300, 600), (600, 610)] := by
  unfold split_audio
  rw [split_loop]
  norm_num
  rw [split_loop]
  norm_num
  rw [split_loop]
  norm_num
  rw [split_loop]
  norm_num

/-- C1: For every `sourceDurationSeconds ≥ 0` and `chunkSeconds > 0`, the
windows produced by the while-loop of `split_audio` are contiguous (each
window's end is the next window's start) and non-overlapping, every window
is nonempty and contained in `[0, d]`, the first window starts at `0`, the
last window's end equals `d`, every point of `[0, d)` is covered by some
window, and `duration = 610` with `chunkSeconds = 300` yields exactly
`[0,300), [300,600), [600,610)`. -/
theorem split_audio_windows (d c : ℚ) (hd : 0 ≤ d) (hc : 0 < c) :
    List.Chain' (fun w1 w2 : ℚ × ℚ => w1.2 = w2.1) (split_audio d c) ∧
    (split_audio d c).Pairwise (fun w1 w2 => w1.2 ≤ w2.1) ∧
    (∀ w ∈ split_audio d c, 0 ≤ w.1 ∧ w.1 < w.2 ∧ w.2 ≤ d) ∧
    (∀ w, (split_audio d c).head? = some w → w.1 = 0) ∧
    (∀ w, (split_audio d c).getLast? = some w → w.2 = d) ∧
    (∀ t, 0 ≤ t → t < d → ∃ w ∈ split_audio d c, w.1 ≤ t ∧ t < w.2) ∧
    split_audio 610 300 = [(0, 300), (300, 600), (600, 610)] := by
  refine ⟨split_loop_chain d c 0, split_loop_pairwise d c 0, ?_, ?_, ?_, ?_,
    split_audio_concrete⟩
  · intro w hw
    have := split_loop_mem d c 0 w hw
    exact ⟨this.1, this.2.1, this.2.2.1⟩
  · intro w hw
    exact split_loop_head d c 0 w hw
  · intro w hw
    exact split_loop_getLast d c 0 w hw
  · intro t ht htd
    exact split_loop_cover d c 0 t ht htd hc

/-- C1 witness: the theorem applied at `d = 610`, `c = 300`. -/
theorem split_audio_windows_witness :
    split_audio 610 300 = [(0, 300), (300, 600), (600, 610)] :=
  (split_audio_windows 610 300 (by norm_num) (by norm_num)).2.2.2.2.2.2

/-- C2: entries derived from a chunk with window `[s, e)` rebase local
times by adding `s` (main.py lines 142-143); if every provider unit has
`0 ≤ localStart ≤ localEnd ≤ e - s`, then every derived entry satisfies
`s ≤ globalStart ≤ globalEnd ≤ e` — no timestamp escapes its chunk. -/
theorem chunkEntries_bounds
    (translator : Option (String → Except Unit String))
    (s e : ℚ) (text : String) (segments : List ProviderSegment)
    (hse : s ≤ e)
    (hseg : ∀ u ∈ segments, 0 ≤ u.startOpt.getD 0 ∧
      u.startOpt.getD 0 ≤ u.endOpt.getD 0 ∧ u.endOpt.getD 0 ≤ e - s) :
    ∀ entry ∈ chunkEntries translator s e text segments,
      s ≤ entry.start ∧ entry.start ≤ entry.stop ∧ entry.stop ≤ e := by
  intro entry hentry
  unfold chunkEntries at hentry
  by_cases hne : segments ≠ []
  · rw [if_pos hne] at hentry
    obtain ⟨u, hu, rfl⟩ := List.mem_map.mp hentry
    obtain ⟨h1, h2, h3⟩ := hseg u hu
    refine ⟨by simpa using h1, by simpa using h2, ?_⟩
    simp only []
    linarith
  · rw [if_neg hne] at hentry
    simp only [List.mem_singleton] at hentry
    subst hentry
    exact ⟨le_refl _, hse, le_refl _⟩

/-- C2 witness: the theorem applied to the window `[300, 610)` with the
single provider unit `(localStart, localEnd) = (1, 2)`, instantiated at
the derived entry `(301, 302)`. -/
theorem chunkEntries_bounds_witness :
    (300 : ℚ) ≤ 301 ∧ (301 : ℚ) ≤ 302 ∧ (302 : ℚ) ≤ 610 := by
  have htrim : pystrip ("hi") = "hi" := by decide
  have hc : chunkEntries none 300 610 ("hi")
      [⟨some 1, some 2, some ("hi")⟩] =
      [{ start := 301, stop := 302, text := "hi", zh := "hi" }] := by
    norm_num [chunkEntries, translate_text, htrim]
  have h := chunkEntries_bounds none 300 610 ("hi")
      [⟨some 1, some 2, some ("hi")⟩] (by norm_num)
      (by
        intro u hu
        simp only [List.mem_singleton] at hu
        subst hu
        simp only [Option.getD_some]
        norm_num)
      { start := 301, stop := 302, text := "hi", zh := "hi" }
      (by rw [hc]; exact List.mem_singleton.mpr rfl)
  exact h

/-- C3: the final sort of the accumulated entries (main.py line 155) is
by `globalStart` ascending — the list handed to the encoder is pairwise
non-decreasing in `start` — and stable: for every fixed `globalStart`
value the subsequence of entries carrying it is exactly the subsequence
in arrival order. -/
theorem sortSegments_sorted_stable (l : List Segment) :
    (sortSegments l).Pairwise (fun a b => a.start ≤ b.start) ∧
    ∀ q : ℚ, (sortSegments l).filter (fun e => decide (e.start = q)) =
      l.filter (fun e => decide (e.start = q)) := by
  have trans : ∀ a b c : Segment, (decide (a.start ≤ b.start)) →
      (decide (b.start ≤ c.start)) → (decide (a.start ≤ c.start)) := by
    intro a b c hab hbc
    simp only [decide_eq_true_eq] at hab hbc ⊢
    exact le_trans hab hbc
  have total : ∀ a b : Segment,
      (decide (a.start ≤ b.start) || decide (b.start ≤ a.start)) = true := by
    intro a b
    simp only [Bool.or_eq_true, decide_eq_true_eq]
    exact le_total a.start b.start
  constructor
  · have hs := @List.sorted_mergeSort Segment
      (fun a b : Segment => decide (a.start ≤ b.start)) trans total l
    exact hs.imp fun h => of_decide_eq_true h
  · intro q
    set p : Segment → Bool := fun e => decide (e.start = q) with hp
    have hall : ∀ e ∈ l.filter p, e.start = q := by
      intro e he
      have := List.of_mem_filter he
      simpa [hp] using this
    have hpw : (l.filter p).Pairwise
        (fun a b => decide (a.start ≤ b.start) = true) := by
      apply List.pairwise_of_forall_mem_list
      intro a ha b hb
      rw [hall a ha, hall b hb]
      simp
    have hsub : List.Sublist (l.filter p) (sortSegments l) :=
      List.sublist_mergeSort trans total hpw (List.filter_sublist l)
    have hsub2 : List.Sublist ((l.filter p).filter p)
        ((sortSegments l).filter p) :=
      hsub.filter p
    have hself : (l.filter p).filter p = l.filter p := by
      apply List.filter_eq_self.mpr
      intro a ha
      simp only [hp, decide_eq_true_eq]
      exact hall a ha
    rw [hself] at hsub2
    have hperm : List.Perm ((sortSegments l).filter p) (l.filter p) :=
      (List.mergeSort_perm l _).filter p
    exact (hsub2.eq_of_length hperm.length_eq.symm).symm

/-- C4: `translate_text` (main.py lines 108-114) returns the input text
unchanged when the translator is unavailable (`None`) or when the
translation call raises, and being a total function it never raises; in
particular a failing translator on "hello" yields "hello". -/
theorem translate_text_fail_open (text : String)
    (f : String → Except Unit String) :
    translate_text text none = text ∧
    (f text = Except.error () → translate_text text (some f) = text) ∧
    translate_text ("hello") (some fun _ => Except.error ()) = "hello" := by
  refine ⟨rfl, ?_, rfl⟩
  intro hf
  simp [translate_text, hf]

/-- C4 witness: the failing-translator branch of the theorem applied at
"hello". -/
theorem translate_text_fail_open_witness :
    translate_text ("hello") (some fun _ => Except.error ()) = "hello" :=
  (translate_text_fail_open ("hello") (fun _ => Except.error ())).2.1 rfl

lemma cueBlock_length_pos (i : Nat) (seg : Segment) :
    0 < (cueBlock i seg).length := by
  unfold cueBlock
  simp only [String.length_append]
  have h2 : ("\n\n" : String).length = 2 := by decide
  rw [h2]
  omega

lemma segments_to_srt_singleton (x : Segment) :
    segments_to_srt [x] = "" ++ cueBlock 1 x := rfl

lemma segments_to_srt_singleton_ne (x : Segment) : segments_to_srt [x] ≠ "" := by
  intro hcontra
  have hlen := congrArg String.length hcontra
  rw [segments_to_srt_singleton, String.length_append] at hlen
  have hpos := cueBlock_length_pos 1 x
  have hz : ("" : String).length = 0 := by decide
  rw [hz] at hlen
  omega

/-- C10 (implicit): every successfully transcribed chunk contributes at
least one entry: the list built by the loop body is never empty, and when
the provider returns no segments and empty text the synthesized
whole-window entry (empty source text, passthrough translation) is still
produced and encodes to a nonempty cue block rather than being omitted. -/
theorem chunkEntries_never_empty
    (translator : Option (String → Except Unit String))
    (s e : ℚ) (text : String) (segments : List ProviderSegment) :
    chunkEntries translator s e text segments ≠ [] ∧
    chunkEntries translator s e ("") [] =
      [{ start := s, stop := e, text := "",
         zh := translate_text ("") translator }] ∧
    segments_to_srt (chunkEntries translator s e ("") []) ≠ "" := by
  have htrim : pystrip ("") = "" := by decide
  have hsynth : chunkEntries translator s e ("") [] =
      [{ start := s, stop := e, text := "",
         zh := translate_text ("") translator }] := by
    unfold chunkEntries
    rw [if_neg (by simp)]
    simp [htrim]
  refine ⟨?_, hsynth, ?_⟩
  · unfold chunkEntries
    by_cases hne : segments ≠ []
    · rw [if_pos hne]
      simpa using hne
    · rw [if_neg hne]
      simp
  · rw [hsynth]
    exact segments_to_srt_singleton_ne _

lemma pytrunc_of_nonneg (q : ℚ) (h : 0 ≤ q) : pytrunc q = ⌊q⌋ := if_pos h

lemma pymod_nonneg (a b : ℚ) (hb : 0 < b) : 0 ≤ pymod a b := by
  have h := Int.sub_floor_div_mul_nonneg a hb
  unfold pymod
  linarith [h]

lemma pymod_lt (a b : ℚ) (hb : 0 < b) : pymod a b < b := by
  have h := Int.sub_floor_div_mul_lt a hb
  unfold pymod
  linarith [h]

set_option maxRecDepth 10000 in
lemma repr_length_le_two : ∀ n : Nat, n < 100 → (Nat.repr n).length ≤ 2 := by
  decide

set_option maxRecDepth 10000 in
lemma repr_length_le_three : ∀ n : Nat, n < 1000 → (Nat.repr n).length ≤ 3 := by
  decide

lemma padNat_length (w n : Nat) (hn : (Nat.repr n).length ≤ w) :
    (padNat w n).length = w := by
  unfold padNat
  rw [String.length_append]
  show (List.replicate (w - (Nat.repr n).length) '0').length +
    (Nat.repr n).length = w
  rw [List.length_replicate]
  omega

lemma padInt_length_of_nonneg (w : Nat) (i : ℤ) (hi : 0 ≤ i)
    (hn : (Nat.repr i.toNat).length ≤ w) : (padInt w i).length = w := by
  unfold padInt
  rw [if_neg (not_lt.mpr hi)]
  exact padNat_length w i.toNat hn

/-- C5: for every nonnegative `sec`, `seconds_to_srt_timestamp` renders
four integer fields `h:m:s,ms` with `":"` and `","` separators, the
minute, second and millisecond fields in range and zero-padded to
exactly 2, 2 and 3 characters, and the value truncated — not rounded —
to millisecond resolution: the rendered time `3600h + 60m + s + ms/1000`
is the largest multiple of `1/1000` not exceeding `sec`. -/
theorem timestamp_format (sec : ℚ) (hsec : 0 ≤ sec) :
    ∃ h m s ms : ℤ,
      seconds_to_srt_timestamp sec =
        padInt 2 h ++ ":" ++ padInt 2 m ++ ":" ++ padInt 2 s ++ "," ++
          padInt 3 ms ∧
      0 ≤ h ∧ 0 ≤ m ∧ m < 60 ∧ 0 ≤ s ∧ s < 60 ∧ 0 ≤ ms ∧ ms < 1000 ∧
      (padInt 2 m).length = 2 ∧ (padInt 2 s).length = 2 ∧
      (padInt 3 ms).length = 3 ∧
      ((3600 * h + 60 * m + s : ℤ) : ℚ) + (ms : ℚ) / 1000 ≤ sec ∧
      sec < ((3600 * h + 60 * m + s : ℤ) : ℚ) + ((ms : ℚ) + 1) / 1000 := by
  refine ⟨⌊sec / 3600⌋, ⌊pymod sec 3600 / 60⌋, pytrunc (pymod sec 60),
    pytrunc ((sec - (pytrunc sec : ℚ)) * 1000), rfl, ?_⟩
  set h : ℤ := ⌊sec / 3600⌋ with hh
  set m : ℤ := ⌊pymod sec 3600 / 60⌋ with hm
  have hr1_nonneg : 0 ≤ pymod sec 3600 := pymod_nonneg sec 3600 (by norm_num)
  have hr1_lt : pymod sec 3600 < 3600 := pymod_lt sec 3600 (by norm_num)
  have hr2_nonneg : 0 ≤ pymod sec 60 := pymod_nonneg sec 60 (by norm_num)
  have hr2_lt : pymod sec 60 < 60 := pymod_lt sec 60 (by norm_num)
  have hs_eq : pytrunc (pymod sec 60) = ⌊pymod sec 60⌋ :=
    pytrunc_of_nonneg _ hr2_nonneg
  have hsec_floor : pytrunc sec = ⌊sec⌋ := pytrunc_of_nonneg sec hsec
  have hfrac_nonneg : (0 : ℚ) ≤ sec - (⌊sec⌋ : ℚ) := by
    have := Int.floor_le sec
    linarith
  have hfrac_lt : sec - (⌊sec⌋ : ℚ) < 1 := by
    have := Int.lt_floor_add_one sec
    linarith
  have hms_eq : pytrunc ((sec - (pytrunc sec : ℚ)) * 1000) =
      ⌊(sec - (⌊sec⌋ : ℚ)) * 1000⌋ := by
    rw [hsec_floor]
    exact pytrunc_of_nonneg _ (by nlinarith)
  set s : ℤ := pytrunc (pymod sec 60) with hsdef
  set ms : ℤ := pytrunc ((sec - (pytrunc sec : ℚ)) * 1000) with hmsdef
  have h_nonneg : 0 ≤ h := Int.floor_nonneg.mpr (by positivity)
  have m_nonneg : 0 ≤ m := Int.floor_nonneg.mpr (by positivity)
  have m_lt : m < 60 := by
    rw [hm]
    rw [Int.floor_lt]
    push_cast
    linarith
  have s_nonneg : 0 ≤ s := by
    rw [hs_eq]
    exact Int.floor_nonneg.mpr hr2_nonneg
  have s_lt : s < 60 := by
    rw [hs_eq, Int.floor_lt]
    push_cast
    linarith
  have ms_nonneg : 0 ≤ ms := by
    rw [hms_eq]
    exact Int.floor_nonneg.mpr (by nlinarith)
  have ms_lt : ms < 1000 := by
    rw [hms_eq, Int.floor_lt]
    push_cast
    nlinarith
  -- the floor of `sec / 60` splits into hours and minutes
  have key1 : ⌊sec / 60⌋ = 60 * h + m := by
    have hq : sec / 60 = ((60 * h : ℤ) : ℚ) + pymod sec 3600 / 60 := by
      unfold pymod
      push_cast
      rw [hh]
      ring
    rw [hq, Int.floor_int_add]
  have key2 : pymod sec 60 = pymod sec 3600 - 60 * (m : ℚ) := by
    unfold pymod
    rw [key1, hh]
    push_cast
    ring
  have floor_r1 : (60 * (m : ℚ)) ≤ pymod sec 3600 ∧
      pymod sec 3600 < 60 * ((m : ℚ) + 1) := by
    constructor
    · have := Int.floor_le (pymod sec 3600 / 60)
      rw [← hm] at this
      nlinarith
    · have := Int.lt_floor_add_one (pymod sec 3600 / 60)
      rw [← hm] at this
      nlinarith
  have s_floor_le : ((s : ℚ)) ≤ pymod sec 60 := by
    rw [hs_eq]
    exact_mod_cast Int.floor_le (pymod sec 60)
  have s_floor_lt : pymod sec 60 < (s : ℚ) + 1 := by
    rw [hs_eq]
    exact_mod_cast Int.lt_floor_add_one (pymod sec 60)
  have decomp : (⌊sec⌋ : ℤ) = 3600 * h + 60 * m + s := by
    rw [Int.floor_eq_iff]
    have hr1 : pymod sec 3600 = sec - 3600 * (h : ℚ) := by
      unfold pymod
      rw [hh]
    have hr2 : pymod sec 60 = sec - 3600 * (h : ℚ) - 60 * (m : ℚ) := by
      rw [key2]
      linarith [hr1]
    constructor
    · push_cast
      rw [hr2] at s_floor_le
      linarith
    · push_cast
      rw [hr2] at s_floor_lt
      linarith
  have ms_le : ((ms : ℚ)) ≤ (sec - (⌊sec⌋ : ℚ)) * 1000 := by
    rw [hms_eq]
    exact Int.floor_le _
  have ms_lt1 : (sec - (⌊sec⌋ : ℚ)) * 1000 < (ms : ℚ) + 1 := by
    rw [hms_eq]
    exact Int.lt_floor_add_one _
  have floor_cast : ((⌊sec⌋ : ℤ) : ℚ) = 3600 * (h : ℚ) + 60 * (m : ℚ) +
      (s : ℚ) := by
    rw [decomp]
    push_cast
    ring
  refine ⟨h_nonneg, m_nonneg, m_lt, s_nonneg, s_lt, ms_nonneg, ms_lt,
    ?_, ?_, ?_, ?_, ?_⟩
  · exact padInt_length_of_nonneg 2 m m_nonneg
      (repr_length_le_two m.toNat (by omega))
  · exact padInt_length_of_nonneg 2 s s_nonneg
      (repr_length_le_two s.toNat (by omega))
  · exact padInt_length_of_nonneg 3 ms ms_nonneg
      (repr_length_le_three ms.toNat (by omega))
  · push_cast
    push_cast at floor_cast
    linarith
  · push_cast
    push_cast at floor_cast
    linarith

/-- C5 witness: the theorem applied at `sec = 3725.4 = 18627/5`, together
with the two concrete renderings of the spec. -/
theorem timestamp_format_witness :
    seconds_to_srt_timestamp (18627 / 5 : ℚ) = "01:02:05,400" ∧
    seconds_to_srt_timestamp 0 = "00:00:00,000" := by
  have happ := timestamp_format (18627 / 5 : ℚ) (by norm_num)
  constructor
  · norm_num [seconds_to_srt_timestamp, pymod, pytrunc]
    decide
  · norm_num [seconds_to_srt_timestamp, pymod, pytrunc]
    decide

lemma transcribe_chunk_openai_events (oa : Bool) (ak : Option String)
    (a1 a2 : Nat → Except Unit ProviderResponse) (idx : Nat) :
    ∀ ev ∈ (transcribe_chunk_openai oa ak a1 a2 idx).2,
      ev = Ev.serviceCall idx := by
  intro ev hev
  unfold transcribe_chunk_openai at hev
  split at hev
  · simp at hev
  · split at hev
    · simp at hev
    · split at hev
      · simp only [List.mem_singleton] at hev
        exact hev
      · split at hev
        · simp only [List.mem_cons, List.mem_singleton, List.not_mem_nil,
            or_false] at hev
          rcases hev with hev | hev <;> exact hev
        · simp only [List.mem_cons, List.mem_singleton, List.not_mem_nil,
            or_false] at hev
          rcases hev with hev | hev <;> exact hev

lemma processChunks_events (cfg : Config)
    (translator : Option (String → Except Unit String))
    (ws : List (Nat × (ℚ × ℚ))) :
    ∀ ev ∈ (processChunks cfg translator ws).2, ∃ i, ev = Ev.serviceCall i := by
  induction ws with
  | nil =>
    intro ev hev
    simp [processChunks] at hev
  | cons head rest ih =>
    obtain ⟨idx, w⟩ := head
    intro ev hev
    unfold processChunks at hev
    by_cases hopen : cfg.use_openai
    · rw [if_pos hopen] at hev
      rcases htr : transcribe_chunk_openai cfg.openaiAvailable cfg.apiKey
          cfg.attempt1 cfg.attempt2 idx with ⟨res, tevs⟩
      have htevs := transcribe_chunk_openai_events cfg.openaiAvailable
        cfg.apiKey cfg.attempt1 cfg.attempt2 idx
      rw [htr] at hev htevs
      cases res with
      | ok r =>
        rcases hrec : processChunks cfg translator rest with ⟨res2, evs2⟩
        rw [hrec] at hev
        have ih2 := ih
        rw [hrec] at ih2
        cases res2 with
        | ok segs =>
          simp only [List.mem_append] at hev
          rcases hev with hev | hev
          · exact ⟨idx, htevs ev hev⟩
          · exact ih2 ev hev
        | error err =>
          simp only [List.mem_append] at hev
          rcases hev with hev | hev
          · exact ⟨idx, htevs ev hev⟩
          · exact ih2 ev hev
      | error err =>
        exact ⟨idx, htevs ev hev⟩
    · rw [if_neg hopen] at hev
      simp at hev

lemma process_file_error_char (cfg : Config) (err : PipelineError)
    (evs : List Ev)
    (hpc : processChunks cfg
      (if cfg.translatorAvailable then some cfg.translatorImpl else none)
      ((split_audio cfg.duration CHUNK_SECONDS).enum) =
      (Except.error err, evs)) :
    process_file cfg = (Except.error err,
      (Ev.extractFullAudio ::
        (split_audio cfg.duration CHUNK_SECONDS).enum.map
          fun p => Ev.extractChunk p.1 p.2.1 p.2.2) ++ evs) := by
  simp only [process_file]
  rw [hpc]

lemma process_file_ok_char (cfg : Config) (entries : List Segment)
    (evs : List Ev)
    (hpc : processChunks cfg
      (if cfg.translatorAvailable then some cfg.translatorImpl else none)
      ((split_audio cfg.duration CHUNK_SECONDS).enum) =
      (Except.ok entries, evs)) :
    process_file cfg = (Except.ok (segments_to_srt (sortSegments entries)),
      (Ev.extractFullAudio ::
        (split_audio cfg.duration CHUNK_SECONDS).enum.map
          fun p => Ev.extractChunk p.1 p.2.1 p.2.2) ++ evs ++
        [Ev.writeSrt (segments_to_srt (sortSegments entries))]) := by
  simp only [process_file]
  rw [hpc]

lemma split_audio_ten : split_audio 10 CHUNK_SECONDS = [(0, 10)] := by
  unfold split_audio CHUNK_SECONDS
  rw [split_loop]
  norm_num
  rw [split_loop]
  norm_num

lemma split_audio_ne_nil (d c : ℚ) (hd : 0 < d) (hc : 0 < c) :
    split_audio d c ≠ [] := by
  unfold split_audio
  rw [split_loop, dif_pos ⟨hd, hc⟩]
  exact List.cons_ne_nil _ _

lemma process_file_cfgNoKey :
    process_file cfgNoKey = (Except.error PipelineError.apiKeyMissing,
      [Ev.extractFullAudio, Ev.extractChunk 0 0 10]) := by
  have hd : cfgNoKey.duration = 10 := rfl
  simp only [process_file]
  rw [hd, split_audio_ten]
  rfl

/-- C6 counterexample: with a missing API key and a 10-second source, the
run does fail with a configuration error, but only after `split_audio`
has already extracted the full audio and the chunk for window `[0, 10)`:
the abort does not happen before chunk work begins, contradicting the
claim. -/
theorem config_error_after_chunk_work :
    (process_file cfgNoKey).1 = Except.error PipelineError.apiKeyMissing ∧
    Ev.extractChunk 0 0 10 ∈ (process_file cfgNoKey).2 := by
  rw [process_file_cfgNoKey]
  exact ⟨rfl, by simp⟩

/-- C6 amended: for every run with `use_openai`, a positive duration and
missing credentials (no API key, or the openai library unavailable), the
run fails with the corresponding configuration error before any
transcription service call is made and no output file is written — but
chunk extraction has already taken place by then. -/
theorem process_file_config_error (cfg : Config)
    (hopen : cfg.use_openai = true)
    (hdur : 0 < cfg.duration)
    (hbad : cfg.apiKey = none ∨ cfg.openaiAvailable = false) :
    (∃ err, (process_file cfg).1 = Except.error err ∧
      (err = PipelineError.apiKeyMissing ∨
        err = PipelineError.openaiMissing)) ∧
    (∀ i, Ev.serviceCall i ∉ (process_file cfg).2) ∧
    (∀ str, Ev.writeSrt str ∉ (process_file cfg).2) := by
  have hw : split_audio cfg.duration CHUNK_SECONDS ≠ [] :=
    split_audio_ne_nil _ _ hdur (by norm_num [CHUNK_SECONDS])
  obtain ⟨w0, ws', hws⟩ := List.exists_cons_of_ne_nil hw
  have htr : ∃ err0,
      (err0 = PipelineError.apiKeyMissing ∨
        err0 = PipelineError.openaiMissing) ∧
      transcribe_chunk_openai cfg.openaiAvailable cfg.apiKey cfg.attempt1
        cfg.attempt2 0 = (Except.error err0, []) := by
    by_cases hoa : cfg.openaiAvailable = false
    · refine ⟨PipelineError.openaiMissing, Or.inr rfl, ?_⟩
      unfold transcribe_chunk_openai
      rw [if_pos hoa]
    · have hak : cfg.apiKey = none := by
        rcases hbad with hb | hb
        · exact hb
        · exact absurd hb hoa
      refine ⟨PipelineError.apiKeyMissing, Or.inl rfl, ?_⟩
      unfold transcribe_chunk_openai
      rw [if_neg hoa, hak]
  obtain ⟨err0, herr0, htr0⟩ := htr
  have hpc : processChunks cfg
      (if cfg.translatorAvailable then some cfg.translatorImpl else none)
      ((split_audio cfg.duration CHUNK_SECONDS).enum) =
      (Except.error err0, []) := by
    rw [hws, List.enum_cons]
    unfold processChunks
    simp only [hopen, if_true]
    rw [htr0]
  have hchar := process_file_error_char cfg err0 [] hpc
  refine ⟨⟨err0, by rw [hchar], herr0⟩, ?_, ?_⟩
  · intro i hi
    rw [hchar] at hi
    simp at hi
  · intro str hstr
    rw [hchar] at hstr
    simp at hstr

/-- C6 witness: the amended theorem applied at the missing-key run
`cfgNoKey`. -/
theorem process_file_config_error_witness :
    Ev.serviceCall 0 ∉ (process_file cfgNoKey).2 ∧
    Ev.writeSrt ("") ∉ (process_file cfgNoKey).2 := by
  have h := process_file_config_error cfgNoKey rfl
    (by show (0 : ℚ) < 10; norm_num) (Or.inl rfl)
  exact ⟨h.2.1 0, h.2.2 ("")⟩

/-- C7: `process_file` writes the output only after every chunk has been
processed: if a chunk's transcription raises, the error propagates and no
`writeSrt` effect occurs in the run's trace; on success the write of the
full document is the final effect of the run. -/
theorem process_file_atomic_output (cfg : Config) :
    (∀ err, (process_file cfg).1 = Except.error err →
      ∀ str, Ev.writeSrt str ∉ (process_file cfg).2) ∧
    (∀ doc, (process_file cfg).1 = Except.ok doc →
      (process_file cfg).2.getLast? = some (Ev.writeSrt doc)) := by
  rcases hpc : processChunks cfg
      (if cfg.translatorAvailable then some cfg.translatorImpl else none)
      ((split_audio cfg.duration CHUNK_SECONDS).enum) with ⟨res, evs⟩
  cases res with
  | ok entries =>
    have hchar := process_file_ok_char cfg entries evs hpc
    constructor
    · intro err herr
      rw [hchar] at herr
      simp at herr
    · intro doc hdoc
      rw [hchar] at hdoc
      simp only [Except.ok.injEq] at hdoc
      rw [hchar, ← hdoc]
      exact List.getLast?_concat _
  | error err0 =>
    have hchar := process_file_error_char cfg err0 evs hpc
    constructor
    · intro err herr str hstr
      rw [hchar] at hstr
      simp only [List.cons_append, List.mem_cons, List.mem_append,
        List.mem_map] at hstr
      rcases hstr with hstr | hstr | hstr
      · exact absurd hstr (by simp)
      · obtain ⟨p, _, hp⟩ := hstr
        exact absurd hp (by simp)
      · obtain ⟨i, hi⟩ := processChunks_events cfg _ _ (Ev.writeSrt str)
          (by rw [hpc]; exact hstr)
        exact absurd hi (by simp)
    · intro doc hdoc
      rw [hchar] at hdoc
      simp at hdoc

/-- C7 witness: the theorem applied at the failing-transcription run
`cfgFailing`, whose first (and only) chunk raises in both attempts. -/
theorem process_file_atomic_output_witness :
    Ev.writeSrt ("") ∉ (process_file cfgFailing).2 := by
  have hall : process_file cfgFailing =
      (Except.error (PipelineError.chunkFailed 0),
        [Ev.extractFullAudio, Ev.extractChunk 0 0 10,
          Ev.serviceCall 0, Ev.serviceCall 0]) := by
    have hd : cfgFailing.duration = 10 := rfl
    simp only [process_file]
    rw [hd, split_audio_ten]
    rfl
  exact (process_file_atomic_output cfgFailing).1
    (PipelineError.chunkFailed 0) (by rw [hall]) ("")

/-- C8: a source of duration 0 yields no windows from the segmenter, the
encoder maps the empty timeline to the empty document (zero cue blocks),
and the whole pipeline on a zero-duration source succeeds with that empty
document as the written output. -/
theorem empty_source_pipeline (cfg : Config) (c : ℚ) :
    split_audio 0 c = [] ∧
    segments_to_srt [] = "" ∧
    (cfg.duration = 0 → (process_file cfg).1 = Except.ok ("") ∧
      (process_file cfg).2.getLast? = some (Ev.writeSrt (""))) := by
  refine ⟨?_, rfl, ?_⟩
  · unfold split_audio
    rw [split_loop, dif_neg]
    simp
  · intro hdur
    have hpc : processChunks cfg
        (if cfg.translatorAvailable then some cfg.translatorImpl else none)
        ((split_audio cfg.duration CHUNK_SECONDS).enum) =
        (Except.ok [], []) := by
      rw [hdur]
      have hnil : split_audio 0 CHUNK_SECONDS = [] := by
        unfold split_audio
        rw [split_loop, dif_neg]
        simp
      rw [hnil]
      rfl
    have hchar := process_file_ok_char cfg [] [] hpc
    have hdoc : segments_to_srt (sortSegments []) = "" := by
      unfold sortSegments
      rw [List.mergeSort_nil]
      rfl
    rw [hchar, hdoc]
    exact ⟨rfl, List.getLast?_concat _⟩

/-- C8 witness: the theorem applied at the zero-duration run
`cfgEmptySource`. -/
theorem empty_source_pipeline_witness :
    (process_file cfgEmptySource).1 = Except.ok ("") :=
  ((empty_source_pipeline cfgEmptySource 300).2.2 rfl).1

/-- C9: main.py never deletes the temporary audio files it creates: every
run's trace contains the extraction of `full_audio.wav` and of every
chunk file, and contains no `removeTemp` event on any path (success or
failure) — the deletion required by the spec never happens. -/
theorem temp_files_never_deleted (cfg : Config) :
    Ev.extractFullAudio ∈ (process_file cfg).2 ∧
    (∀ p ∈ (split_audio cfg.duration CHUNK_SECONDS).enum,
      Ev.extractChunk p.1 p.2.1 p.2.2 ∈ (process_file cfg).2) ∧
    (∀ x, Ev.removeTemp x ∉ (process_file cfg).2) := by
  rcases hpc : processChunks cfg
      (if cfg.translatorAvailable then some cfg.translatorImpl else none)
      ((split_audio cfg.duration CHUNK_SECONDS).enum) with ⟨res, evs⟩
  have hevs : ∀ ev ∈ evs, ∃ i, ev = Ev.serviceCall i := by
    intro ev hev
    exact processChunks_events cfg _ _ ev (by rw [hpc]; exact hev)
  cases res with
  | ok entries =>
    have hchar := process_file_ok_char cfg entries evs hpc
    rw [hchar]
    refine ⟨by simp, ?_, ?_⟩
    · intro p hp
      simp only [List.cons_append, List.mem_cons, List.mem_append]
      exact Or.inr (Or.inl (Or.inl (List.mem_map_of_mem _ hp)))
    · intro x hx
      simp only [List.cons_append, List.mem_cons, List.mem_append,
        List.mem_map, List.mem_singleton] at hx
      rcases hx with hx | ⟨⟨p, _, hp⟩ | hx⟩ | hx
      · exact absurd hx (by simp)
      · exact absurd hp (by simp)
      · obtain ⟨i, hi⟩ := hevs _ hx
        exact absurd hi (by simp)
      · exact absurd hx (by simp)
  | error err0 =>
    have hchar := process_file_error_char cfg err0 evs hpc
    rw [hchar]
    refine ⟨by simp, ?_, ?_⟩
    · intro p hp
      simp only [List.cons_append, List.mem_cons, List.mem_append]
      exact Or.inr (Or.inl (List.mem_map_of_mem _ hp))
    · intro x hx
      simp only [List.cons_append, List.mem_cons, List.mem_append,
        List.mem_map] at hx
      rcases hx with hx | ⟨p, _, hp⟩ | hx
      · exact absurd hx (by simp)
      · exact absurd hp (by simp)
      · obtain ⟨i, hi⟩ := hevs _ hx
        exact absurd hi (by simp)

end VmaSubtitle
